import Mathlib

/-!
# Pageship: Collector and ContentCache

A shallow embedding of `internal/deploy/collect.go` (the streaming Collector)
and `internal/cache/contentcache.go` (the ContentCache), together with the parts
of the Go standard library they run on (`io/fs.WalkDir`, `io.Copy`,
`io.TeeReader`, `path.Join`), and theorems about them.

Conventions.
* A Go `error` is `Option Error`; `none` is `nil`.
* A Go pointer that may be `nil` is an `Option`.
* A Go call that can panic, block forever or recurse without bound returns an
  `Outcome`.
* Objects of external libraries (the tar writer, the zstd encoder, the
  file system) are modelled by what the code can observe of them: the results
  of the calls it makes. The calls made on the output side are recorded, in
  order, in a trace.
-/

namespace Pageship

/-! ## Errors and outcomes -/

/-- Error values. The named constructors are the sentinel values the code
compares against; `other` is any further error, identified by its message. -/
inductive Error where
  | SkipDir
  | SkipAll
  | EOF
  | ErrShortWrite
  | errInvalidWrite
  | ErrTooManyFiles
  | other (msg : String)
  deriving DecidableEq

/-- The value of `var ErrTooManyFiles error = Error("too many files collected")`. -/
def ErrTooManyFiles : Error := Error.ErrTooManyFiles

/-- How a call ends: it returns, it panics, or it never returns (a deadlock, or
a recursion deeper than the fuel given to the model). -/
inductive Outcome (α : Type) where
  | ret (a : α)
  | panic (msg : String)
  | diverge
  deriving DecidableEq

deriving instance DecidableEq for Except

/-- Bytes. -/
abbrev Bytes := List UInt8

/-! ## ContentCache (`internal/cache/contentcache.go`) -/

/-- A `sync.Mutex`. -/
structure Mutex where
  locked : Bool
  deriving DecidableEq

/-- The struct `contentCacheCell`; `data` is a `*bytes.Buffer`, which may be nil. -/
structure contentCacheCell where
  hash : String
  data : Option Bytes
  deriving DecidableEq

/-- The `ristretto.Cache` as the ContentCache sees it: the resident items, each
with the cost it was set with, and the capacity it was configured with. -/
structure Ristretto where
  MaxCost : Int
  items : List (String × contentCacheCell × Int)
  deriving DecidableEq

/-- `const contentCacheSize int64 = 1000000000`. -/
def contentCacheSize : Int := 1000000000

/-- `cache.Get(id)`: the value as an `interface{}` (nil on a miss) and whether
the key was found. -/
def Ristretto.Get (r : Ristretto) (id : String) : Option contentCacheCell × Bool :=
  match r.items.lookup id with
  | some (cell, _) => (some cell, true)
  | none => (none, false)

/-- `cache.Set(id, value, cost)`: the item becomes resident under `id`, in
place of an item already resident under that key. -/
def Ristretto.Set (r : Ristretto) (id : String) (value : contentCacheCell) (cost : Int) :
    Ristretto :=
  { r with items := (id, value, cost) :: r.items.filter (fun kv => kv.1 != id) }

/-- The struct `ContentCache`: the lock table `m`, the store `cache` and the
loader `load`. -/
structure ContentCache where
  m : List (String × Mutex)
  cache : Ristretto
  load : String → Option Bytes × Option Error

/-- `NewContentCache(load)`: an empty lock table (`make(map[string]*sync.Mutex)`)
and an empty store of capacity `contentCacheSize`. -/
def NewContentCache (load : String → Option Bytes × Option Error) : ContentCache :=
  { m := [], cache := { MaxCost := contentCacheSize, items := [] }, load := load }

/-- The lock table after the mutex stored under `id` is replaced by `mu`. -/
def setMutex (m : List (String × Mutex)) (id : String) (mu : Mutex) : List (String × Mutex) :=
  m.map (fun kv => if kv.1 = id then (kv.1, mu) else kv)

/-- The method `(c *ContentCache) getContent(id)`: the outcome (the returned
buffer and error, or a panic) and the cache afterwards.

* `(*c).m[id].Lock()`: the map lookup of an absent key gives a nil
  `*sync.Mutex`, and `Lock` on it panics; locking a locked mutex never returns.
* `defer c.m[id].Unlock()` runs when the function returns or panics.
* `temp.(contentCacheCell)` panics when `temp` is the nil interface, which is
  what `Get` returns on a miss.
* `ce.data.Len()` panics on a nil buffer. -/
def ContentCache.getContent (c : ContentCache) (id : String) :
    Outcome (Option Bytes × Option Error) × ContentCache :=
  match c.m.lookup id with
  | none => (.panic "invalid memory address or nil pointer dereference", c)
  | some mu =>
    if mu.locked then (.diverge, c)
    else
      let locked : ContentCache := { c with m := setMutex c.m id { locked := true } }
      let unlock (c1 : ContentCache) : ContentCache :=
        { c1 with m := setMutex c1.m id { locked := false } }
      let (temp, found) := locked.cache.Get id
      match temp with
      | none =>
        (.panic "interface conversion: nil interface is not a contentCacheCell",
          unlock locked)
      | some ce =>
        if found then (.ret (ce.data, none), unlock locked)
        else
          let (data, err) := locked.load id
          match err with
          | some e => (.ret (data, some e), unlock locked)
          | none =>
            let ce : contentCacheCell := { hash := id, data := data }
            match ce.data with
            | none => (.panic "invalid memory address or nil pointer dereference", unlock locked)
            | some b =>
              let stored : ContentCache :=
                { locked with cache := locked.cache.Set id ce (Int.ofNat b.length) }
              (.ret (ce.data, none), unlock stored)

/-- A key is resident when the store finds it. -/
def ContentCache.resident (c : ContentCache) (id : String) : Prop :=
  (c.cache.Get id).2 = true

/-! ## The file-system view (`io/fs`) -/

/-- A `fs.FileMode`: a 32-bit set of mode bits. -/
abbrev FileMode := Nat

/-- `fs.ModeDir`, `1 << 31`. -/
def ModeDir : FileMode := 2147483648

/-- `fs.ModeSymlink`, `1 << 27`. -/
def ModeSymlink : FileMode := 134217728

/-- `fs.ModeType`: the union of the type bits (directory, symlink, named pipe,
socket, device, character device, irregular). -/
def ModeType : FileMode := 2401763328

/-- `FileMode.IsDir`: `m&ModeDir != 0`. -/
def FileMode.IsDir (m : FileMode) : Bool := m &&& ModeDir != 0

/-- What a `fs.FileInfo` reports: name, size in bytes and mode bits. -/
structure FileInfo where
  name : String
  size : Int
  mode : FileMode
  deriving DecidableEq

/-- `FileInfo.IsDir`, an abbreviation for `Mode().IsDir()`. -/
def FileInfo.IsDir (info : FileInfo) : Bool := FileMode.IsDir info.mode

/-- What a `fs.DirEntry` reports: its name, its type bits and the result of
`Info()`. -/
structure DirEntry where
  name : String
  typ : FileMode
  info : Except Error FileInfo
  deriving DecidableEq

/-- `DirEntry.IsDir`: whether the type bits describe a directory. -/
def DirEntry.IsDir (d : DirEntry) : Bool := FileMode.IsDir d.typ

/-- `fs.FileInfoToDirEntry(info)`: the entry reports the info itself, and the
type bits of its mode. -/
def FileInfoToDirEntry (info : FileInfo) : DirEntry :=
  { name := info.name, typ := info.mode &&& ModeType, info := .ok info }

/-- An open `fs.File` as its reader sees it: the results of the successive
`Read` calls, each the bytes it delivered and the error it returned; once they
are used up `Read` returns no bytes and `io.EOF`. -/
structure File where
  reads : List (Bytes × Option Error)
  deriving DecidableEq

/-- A `fs.FS` as `fs.Stat`, `fs.ReadDir` and `Open` see it. `readDir` gives the
entries it read and the error, if any, that stopped it. -/
structure FS where
  stat : String → Except Error FileInfo
  readDir : String → List DirEntry × Option Error
  openFile : String → Except Error File

/-! ## Paths (`path`, `path/filepath`) -/

/-- The elements of a path between its slashes. -/
def splitSlash : List Char → List (List Char)
  | [] => [[]]
  | c :: cs =>
    match splitSlash cs with
    | [] => [[]]
    | x :: xs => if c = '/' then [] :: x :: xs else (c :: x) :: xs

/-- The elements joined by slashes. -/
def joinSlash : List (List Char) → List Char
  | [] => []
  | [x] => x
  | x :: y :: rest => x ++ '/' :: joinSlash (y :: rest)

/-- One element processed by `path.Clean`; `out` holds the elements kept so far,
the last one first. Empty and `.` elements are dropped; `..` removes the element
before it when there is one that is not `..`, is dropped at the root, and is kept
otherwise. -/
def cleanStep (rooted : Bool) (out : List (List Char)) (elem : List Char) : List (List Char) :=
  if elem = [] ∨ elem = ['.'] then out
  else if elem = ['.', '.'] then
    match out with
    | top :: rest =>
      if top = ['.', '.'] then (if rooted then out else elem :: out) else rest
    | [] => if rooted then out else [elem]
  else elem :: out

/-- `path.Clean(p)`: the shortest path equivalent to `p` by lexical processing. -/
def Clean (p : String) : String :=
  if p = "" then "."
  else
    let rooted : Bool := p.data.head? = some '/'
    let out := ((splitSlash p.data).foldl (cleanStep rooted) []).reverse
    if rooted then String.mk ('/' :: joinSlash out)
    else if out = [] then "." else String.mk (joinSlash out)

/-- `path.Join(a, b)`: the non-empty prefix of the elements joined by slashes,
cleaned; the empty string when both are empty. -/
def pathJoin (a b : String) : String :=
  if a = "" ∧ b = "" then ""
  else Clean (if a = "" then b else a ++ "/" ++ b)

/-- `filepath.ToSlash(p)` where the path separator is the slash: `p` itself. -/
def ToSlash (p : String) : String := p

/-! ## The output side (`archive/tar`, `zstd`) -/

/-- `tar.TypeReg`, the byte of the character 0. -/
def TypeReg : Nat := 48

/-- `tar.TypeDir`, the byte of the character 5. -/
def TypeDir : Nat := 53

/-- The fields of `tar.Header` the code sets. -/
structure Header where
  Typeflag : Nat
  Name : String
  ModTime : Nat
  Size : Int
  deriving DecidableEq

/-- A call made on the archive writer or on the compressor. -/
inductive Event where
  | WriteHeader (h : Header)
  | Write (b : Bytes)
  | CloseWriter
  | CloseEncoder
  deriving DecidableEq

/-- A `*tar.Writer` as its caller sees it: given the calls made so far, the error
`WriteHeader` returns, and the byte count and error `Write` returns. -/
structure TarWriter where
  WriteHeader : List Event → Header → Option Error
  Write : List Event → Bytes → Int × Option Error

/-- A `*zstd.Encoder`; the code only closes it. -/
structure ZstdEncoder where
  deriving DecidableEq

/-! ## The content hasher -/

/-- The hasher `NewFileHash()` makes, whose source file is not among the sources,
as the code uses it: the state of a new hasher, `Write` (which, as for every
`hash.Hash`, never returns an error) and `Sum`, the hex digest. -/
structure FileHash where
  State : Type
  New : State
  Write : State → Bytes → State
  Sum : State → String

/-- The contract of the hasher: the digest is taken over the exact concatenation
of all written bytes, whatever the chunk boundaries. -/
structure FileHash.Streaming (H : FileHash) : Prop where
  write_nil : ∀ s, H.Write s [] = s
  write_append : ∀ s a b, H.Write (H.Write s a) b = H.Write s (a ++ b)

/-! ## `io.Copy` over `io.TeeReader` -/

/-- One `Read` of `io.TeeReader(file, h)`: the bytes the file delivered are
written to the hasher, and the result of the file read is returned. -/
def teeRead (H : FileHash) (r : Bytes × Option Error) (h : H.State) :
    (Bytes × Option Error) × H.State :=
  if r.1.length > 0 then (r, H.Write h r.1) else (r, h)

/-- The loop of `io.Copy(writer, io.TeeReader(file, h))` over the reads still to
come: each read with bytes is written to the writer; a write error, a short
write or a read error other than `io.EOF` ends the copy with that error, and
`io.EOF` ends it without one. Returns the error, the hasher and the trace. -/
def ioCopy (H : FileHash) (writer : TarWriter) :
    List (Bytes × Option Error) → H.State → List Event → Option Error × H.State × List Event
  | [], h, io => (none, h, io)
  | r :: rest, h, io =>
    let ((p, er), h) := teeRead H r h
    let nr : Int := Int.ofNat p.length
    let written : Option Error × List Event :=
      if nr > 0 then
        let (nw, ew) := writer.Write io p
        let io := io ++ [Event.Write p]
        let ew := if nw < 0 ∨ nr < nw then (if ew = none then some Error.errInvalidWrite else ew)
          else ew
        let nw := if nw < 0 ∨ nr < nw then 0 else nw
        match ew with
        | some e => (some e, io)
        | none => if nr ≠ nw then (some Error.ErrShortWrite, io) else (none, io)
      else (none, io)
    match written with
    | (some e, io) => (some e, h, io)
    | (none, io) =>
      match er with
      | some e => if e = Error.EOF then (none, h, io) else (some e, h, io)
      | none => ioCopy H writer rest h io

/-! ## The Collector (`internal/deploy/collect.go`) -/

/-- The fields of `models.FileEntry` the code sets. -/
structure FileEntry where
  Path : String
  Size : Int
  Hash : String
  deriving DecidableEq

/-- The zero value `models.FileEntry{}`. -/
def FileEntry.zero : FileEntry := { Path := "", Size := 0, Hash := "" }

/-- The struct `Collector`, together with the trace `io` of the calls made so
far on its archive writer and its compressor. -/
structure Collector where
  files : List FileEntry
  modTime : Nat
  closed : Bool
  comp : Option ZstdEncoder
  writer : Option TarWriter
  io : List Event

/-- The function `addFile(fsys, filePath, d, dir, modTime, writer)`: the entry and
the error it returns, and the trace afterwards. The error `WriteHeader` returns
is dropped, as in the source. `writer.WriteHeader` on a nil writer panics. -/
def addFile (H : FileHash) (fsys : FS) (filePath : String) (d : DirEntry)
    (dir : String) (modTime : Nat) (writer : Option TarWriter) (io : List Event) :
    Outcome ((FileEntry × Option Error) × List Event) :=
  match d.info with
  | .error err => .ret ((FileEntry.zero, some err), io)
  | .ok info =>
    let path := pathJoin dir (ToSlash filePath)
    let header : Header := { Typeflag := 0, Name := path, ModTime := modTime, Size := info.size }
    let header : Header :=
      if info.IsDir then { header with Typeflag := TypeDir, Size := 0, Name := header.Name ++ "/" }
      else { header with Typeflag := TypeReg }
    match writer with
    | none => .panic "invalid memory address or nil pointer dereference"
    | some writer =>
      let _ignored := writer.WriteHeader io header
      let io := io ++ [Event.WriteHeader header]
      if !info.IsDir then
        match fsys.openFile filePath with
        | .error err => .ret ((FileEntry.zero, some err), io)
        | .ok file =>
          let (err, h, io) := ioCopy H writer file.reads H.New io
          match err with
          | some e => .ret ((FileEntry.zero, some e), io)
          | none =>
            .ret (({ Path := header.Name, Size := header.Size, Hash := H.Sum h }, none), io)
      else
        .ret (({ Path := header.Name, Size := header.Size, Hash := "" }, none), io)

/-- The method `Close`: nothing when the collector is closed already; otherwise
the archive writer is closed if it is not nil, then the compressor if it is not
nil, and the collector is marked closed. -/
def Collector.Close (c : Collector) : Collector :=
  if c.closed then c
  else
    let c : Collector := if c.writer.isSome then { c with io := c.io ++ [Event.CloseWriter] } else c
    let c : Collector := if c.comp.isSome then { c with io := c.io ++ [Event.CloseEncoder] } else c
    { c with closed := true }

/-- `NewCollector(modTime, tarfile)`. `encoder` is what `zstd.NewWriter` returns
and `tw` the tar writer `tar.NewWriter` makes over the encoder. When the
compressor cannot be initialised the deferred function closes the collector and
nil is returned with the error. -/
def NewCollector (modTime : Nat) (encoder : Except Error ZstdEncoder) (tw : TarWriter) :
    Option Collector × Option Error :=
  let coll : Collector :=
    { files := [], modTime := modTime, closed := false, comp := none, writer := none, io := [] }
  match encoder with
  | .error err =>
    let _closed := coll.Close
    (none, some err)
  | .ok comp => (some { coll with comp := some comp, writer := some tw }, none)

/-- The method `Files`. -/
def Collector.Files (c : Collector) : List FileEntry := c.files

/-- The method `AddFile(path, data)`. The hasher consumes `data` in one copy,
which cannot fail; the errors of `WriteHeader` and `Write` are dropped, as in
the source. On a nil writer the call panics. -/
def Collector.AddFile (H : FileHash) (c : Collector) (path : String) (data : Bytes) :
    Outcome (Option Error × Collector) :=
  let h := if data.length > 0 then H.Write H.New data else H.New
  let hash := H.Sum h
  let header : Header :=
    { Typeflag := TypeReg, Name := path, ModTime := c.modTime, Size := Int.ofNat data.length }
  match c.writer with
  | none => .panic "invalid memory address or nil pointer dereference"
  | some writer =>
    let _ignored := writer.WriteHeader c.io header
    let io := c.io ++ [Event.WriteHeader header]
    let _ignored2 := writer.Write io data
    let io := io ++ [Event.Write data]
    .ret (none, { c with
      files := c.files ++ [{ Path := header.Name, Size := header.Size, Hash := hash }],
      io := io })

/-! ## `fs.WalkDir` -/

/-- A `fs.WalkDirFunc` acting on a state: called with the path, the entry (nil
when the root could not be examined) and the error of the walk, it returns an
error or nil. -/
abbrev WalkDirFunc (σ : Type) :=
  String → Option DirEntry → Option Error → σ → Outcome (Option Error × σ)

/-- The loop of `walkDir` over the entries of a directory: `step` walks one
entry; `SkipDir` from it ends the loop without error, any other error is
returned. -/
def walkDirLoop {σ : Type} (step : String → DirEntry → σ → Outcome (Option Error × σ))
    (name : String) : List DirEntry → σ → Outcome (Option Error × σ)
  | [], s => .ret (none, s)
  | d1 :: rest, s =>
    let name1 := pathJoin name d1.name
    match step name1 d1 s with
    | .ret (some err, s) => if err = Error.SkipDir then .ret (none, s) else .ret (some err, s)
    | .ret (none, s) => walkDirLoop step name rest s
    | .panic msg => .panic msg
    | .diverge => .diverge

/-- The function `walkDir` of `io/fs`: the function is called on the entry; if
that gives no error and the entry is a directory its entries are read (a read
error is reported to the function by a second call) and walked in turn. `fuel`
bounds the depth of the recursion. -/
def walkDir {σ : Type} (fsys : FS) (walkDirFn : WalkDirFunc σ) :
    Nat → String → DirEntry → σ → Outcome (Option Error × σ)
  | fuel, name, d, s =>
    match walkDirFn name (some d) none s with
    | .panic msg => .panic msg
    | .diverge => .diverge
    | .ret (err, s) =>
      if err ≠ none ∨ !d.IsDir then
        .ret (if err = some Error.SkipDir ∧ d.IsDir then none else err, s)
      else
        let (dirs, err) := fsys.readDir name
        let second : Outcome (Option Error × σ) :=
          match err with
          | some e => walkDirFn name (some d) (some e) s
          | none => .ret (none, s)
        match second with
        | .panic msg => .panic msg
        | .diverge => .diverge
        | .ret (some err, s) =>
          .ret (if err = Error.SkipDir ∧ d.IsDir then none else some err, s)
        | .ret (none, s) =>
          match fuel with
          | 0 => .diverge
          | fuel + 1 => walkDirLoop (walkDir fsys walkDirFn fuel) name dirs s

/-- The function `fs.WalkDir(fsys, root, fn)`: the root is examined with `Stat`;
on an error the function is called with it, otherwise the tree is walked from
the root. `SkipDir` and `SkipAll` become nil. -/
def WalkDir {σ : Type} (fsys : FS) (fuel : Nat) (root : String) (fn : WalkDirFunc σ) (s : σ) :
    Outcome (Option Error × σ) :=
  let walked : Outcome (Option Error × σ) :=
    match fsys.stat root with
    | .error err => fn root none (some err) s
    | .ok info => walkDir fsys fn fuel root (FileInfoToDirEntry info) s
  match walked with
  | .ret (err, s) =>
    if err = some Error.SkipDir ∨ err = some Error.SkipAll then .ret (none, s) else .ret (err, s)
  | .panic msg => .panic msg
  | .diverge => .diverge

/-! ## `Collect` -/

/-- The body of the closure `walker` in `Collect`; `rewalk p` stands for its call
`fs.WalkDir(fsys, p, walker)` on a symlink. `MaxFiles` is `models.MaxFiles`. -/
def walkerBody (MaxFiles : Nat) (H : FileHash) (fsys : FS) (dir : String)
    (rewalk : String → Collector → Outcome (Option Error × Collector)) : WalkDirFunc Collector :=
  fun p d err c =>
    match err with
    | some e => .ret (some e, c)
    | none =>
      match d with
      | none => .panic "invalid memory address or nil pointer dereference"
      | some d =>
        if d.typ &&& ModeSymlink = ModeSymlink then rewalk p c
        else
          match addFile H fsys p d dir c.modTime c.writer c.io with
          | .panic msg => .panic msg
          | .diverge => .diverge
          | .ret ((entry, err), io) =>
            let c : Collector := { c with io := io }
            match err with
            | some e => .ret (some e, c)
            | none =>
              let c : Collector := { c with files := c.files ++ [entry] }
              if c.files.length > MaxFiles then .ret (some ErrTooManyFiles, c)
              else .ret (none, c)

/-- The closure `walker` of `Collect`; `fuel` bounds how deeply symlinks are
walked through. -/
def walker (MaxFiles : Nat) (H : FileHash) (fsys : FS) (dir : String) :
    Nat → WalkDirFunc Collector
  | 0 => walkerBody MaxFiles H fsys dir (fun _ _ => .diverge)
  | fuel + 1 =>
    walkerBody MaxFiles H fsys dir
      (fun p c => WalkDir fsys fuel p (walker MaxFiles H fsys dir fuel) c)

/-- The method `Collect(fsys, dir)`: `fs.WalkDir(fsys, ".", walker)`. -/
def Collector.Collect (MaxFiles : Nat) (H : FileHash) (fuel : Nat) (c : Collector)
    (fsys : FS) (dir : String) : Outcome (Option Error × Collector) :=
  WalkDir fsys fuel "." (walker MaxFiles H fsys dir fuel) c

/-! ## Describing inputs: trees, well-behaved writers, sample values -/

/-- A writer none of whose calls fails: `WriteHeader` returns nil and `Write`
accepts all the bytes it is given. -/
def TarWriter.neverFails (w : TarWriter) : Prop :=
  (∀ io h, w.WriteHeader io h = none) ∧ ∀ io p, w.Write io p = (Int.ofNat p.length, none)

/-- The reads of a file none of which fails: each returns nil, or `io.EOF` (after
which no further read is made). -/
def goodReads : List (Bytes × Option Error) → Bool
  | [] => true
  | (_, none) :: rest => goodReads rest
  | (_, some e) :: _ => decide (e = Error.EOF)

/-- The bytes read from a file by reads made until one returns an error or
`io.EOF`: the concatenation of the bytes they delivered. -/
def readBytes : List (Bytes × Option Error) → Bytes
  | [] => []
  | (p, none) :: rest => p ++ readBytes rest
  | (p, some _) :: _ => p

/-- A finite directory tree without symlinks, as the walk sees it: a regular
file with the entry its directory lists for it, what `Info()` reports and what
`Open` gives; or a directory with its entry, its info and its children in the
order `ReadDir` lists them. -/
inductive Tree where
  | file (d : DirEntry) (info : FileInfo) (f : File)
  | dir (d : DirEntry) (info : FileInfo) (children : List Tree)

/-- The directory entry of the root of a tree. -/
def Tree.entry : Tree → DirEntry
  | .file d _ _ => d
  | .dir d _ _ => d

mutual
/-- The number of regular files in a tree. -/
def Tree.numFiles : Tree → Nat
  | .file _ _ _ => 1
  | .dir _ _ cs => numFilesList cs
/-- The number of regular files in a list of trees. -/
def numFilesList : List Tree → Nat
  | [] => 0
  | t :: ts => t.numFiles + numFilesList ts
end

mutual
/-- The number of directories in a tree, its root included. -/
def Tree.numDirs : Tree → Nat
  | .file _ _ _ => 0
  | .dir _ _ cs => 1 + numDirsList cs
/-- The number of directories in a list of trees. -/
def numDirsList : List Tree → Nat
  | [] => 0
  | t :: ts => t.numDirs + numDirsList ts
end

mutual
/-- The depth of a tree: how many directories deep the walk descends. -/
def Tree.height : Tree → Nat
  | .file _ _ _ => 0
  | .dir _ _ cs => 1 + heightList cs
/-- The greatest depth among a list of trees. -/
def heightList : List Tree → Nat
  | [] => 0
  | t :: ts => max t.height (heightList ts)
end

mutual
/-- Whether the file system shows the tree at the path `name`, without any
failure: the entries are not symlinks, `Info()` succeeds and agrees with the
entry on being a directory, a file opens and its reads succeed, and a directory
lists exactly the entries of its children, each shown at its joined path. -/
def Tree.represents (fsys : FS) : String → Tree → Bool
  | name, .file d info f =>
    decide (d.typ &&& ModeSymlink ≠ ModeSymlink) && !d.IsDir && decide (d.info = .ok info)
      && !info.IsDir && decide (fsys.openFile name = .ok f) && goodReads f.reads
  | name, .dir d info cs =>
    decide (d.typ &&& ModeSymlink ≠ ModeSymlink) && d.IsDir && decide (d.info = .ok info)
      && info.IsDir && decide (fsys.readDir name = (cs.map Tree.entry, none))
      && representsList fsys name cs
/-- Whether the file system shows each tree of the list under the directory
`name`. -/
def representsList (fsys : FS) : String → List Tree → Bool
  | _, [] => true
  | name, t :: ts =>
    t.represents fsys (pathJoin name t.entry.name) && representsList fsys name ts
end

/-- Whether the file system view is the tree: `Stat` of the root succeeds and
gives the entry of the tree, and the view shows the tree at the root. -/
def Tree.isViewOf (t : Tree) (fsys : FS) : Bool :=
  (match fsys.stat "." with
    | .ok info => decide (FileInfoToDirEntry info = t.entry)
    | .error _ => false) && t.represents fsys "."

/-- The state of the hasher after the reads of a file made until one returns
an error or `io.EOF`, each passing the bytes it delivered to the hasher. -/
def hashReads (H : FileHash) : List (Bytes × Option Error) → H.State → H.State
  | [], h => h
  | (p, none) :: rest, h => hashReads H rest (teeRead H (p, none) h).2
  | (p, some e) :: _, h => (teeRead H (p, some e) h).2

/-- The entry `addFile` returns for a directory with info `info` at walk path
`p` under mount path `dir`, and for a regular file whose content hashes to
`hash`. -/
def entryFor (dir p : String) (info : FileInfo) (hash : String) : FileEntry :=
  if info.IsDir then { Path := pathJoin dir (ToSlash p) ++ "/", Size := 0, Hash := "" }
  else { Path := pathJoin dir (ToSlash p), Size := info.size, Hash := hash }

mutual
/-- The entries of a tree at walk path `p`, in the order of the walk: the root
first, then each child with all below it, in the listed order. -/
def Tree.entries (H : FileHash) (dir : String) : String → Tree → List FileEntry
  | p, .file _ info f => [entryFor dir p info (H.Sum (hashReads H f.reads H.New))]
  | p, .dir _ info cs => entryFor dir p info "" :: entriesList H dir p cs
/-- The entries of the trees of a list under the directory at walk path `p`. -/
def entriesList (H : FileHash) (dir : String) : String → List Tree → List FileEntry
  | _, [] => []
  | p, t :: ts => t.entries H dir (pathJoin p t.entry.name) ++ entriesList H dir p ts
end

/-- `n` successive calls `AddFile(path, data)`, as long as each returns without
error. -/
def AddFileRepeat (H : FileHash) (path : String) (data : Bytes) :
    Nat → Collector → Outcome (Option Error × Collector)
  | 0, c => .ret (none, c)
  | n + 1, c =>
    match c.AddFile H path data with
    | .ret (none, c1) => AddFileRepeat H path data n c1
    | other => other

/-- The error a call returned, when it returned. -/
def Outcome.error? {σ : Type} : Outcome (Option Error × σ) → Option (Option Error)
  | .ret (e, _) => some e
  | _ => none

/-- The manifest after a call that returned; empty otherwise. -/
def Outcome.files : Outcome (Option Error × Collector) → List FileEntry
  | .ret (_, c) => c.Files
  | _ => []

/-- The trace after a call that returned; empty otherwise. -/
def Outcome.trace : Outcome (Option Error × Collector) → List Event
  | .ret (_, c) => c.io
  | _ => []

/-! ### Sample values -/

/-- A hasher whose digest spells out the bytes it consumed. -/
def spellHash : FileHash where
  State := Bytes
  New := []
  Write := fun s p => s ++ p
  Sum := fun s => String.mk (s.map (fun b => Char.ofNat b.toNat))

/-- A writer none of whose calls fails. -/
def okWriter : TarWriter where
  WriteHeader := fun _ _ => none
  Write := fun _ p => (Int.ofNat p.length, none)

/-- A writer that, like a `tar.Writer`, fails every call made after it was
closed. -/
def closableWriter : TarWriter where
  WriteHeader := fun io _ =>
    if Event.CloseWriter ∈ io then some (Error.other "archive/tar: write after close") else none
  Write := fun io p =>
    if Event.CloseWriter ∈ io then (0, some (Error.other "archive/tar: write after close"))
    else (Int.ofNat p.length, none)

/-- A freshly made collector over `okWriter`. -/
def freshCollector : Collector :=
  { files := [], modTime := 0, closed := false, comp := some {}, writer := some okWriter, io := [] }

/-- The bytes of `hello`. -/
def helloBytes : Bytes := [104, 101, 108, 108, 111]

/-- Info of the root directory of the sample tree. -/
def rootInfo : FileInfo := { name := ".", size := 4096, mode := ModeDir + 493 }

/-- Info of the file `a.txt`, 5 bytes. -/
def aInfo : FileInfo := { name := "a.txt", size := 5, mode := 420 }

/-- Info of the directory `b`. -/
def bInfo : FileInfo := { name := "b", size := 4096, mode := ModeDir + 493 }

/-- Info of the file `b/c.txt`, 6 bytes. -/
def cInfo : FileInfo := { name := "c.txt", size := 6, mode := 420 }

/-- The file `a.txt`, read in one chunk followed by `io.EOF`. -/
def aFile : File := { reads := [(helloBytes, none), ([], some Error.EOF)] }

/-- The file `b/c.txt`, read in two chunks. -/
def cFile : File := { reads := [([119, 111, 114], none), ([108, 100, 33], some Error.EOF)] }

/-- The sample view: a directory containing `a.txt` and `b/c.txt`. -/
def sampleFS : FS where
  stat := fun p => if p = "." then .ok rootInfo else .error (Error.other "file does not exist")
  readDir := fun p =>
    if p = "." then ([FileInfoToDirEntry aInfo, FileInfoToDirEntry bInfo], none)
    else if p = "b" then ([FileInfoToDirEntry cInfo], none)
    else ([], some (Error.other "not a directory"))
  openFile := fun p =>
    if p = "a.txt" then .ok aFile
    else if p = "b/c.txt" then .ok cFile
    else .error (Error.other "file does not exist")

/-- The sample view as a tree: 2 regular files, and 1 directory below the root. -/
def sampleTree : Tree :=
  .dir (FileInfoToDirEntry rootInfo) rootInfo
    [.file (FileInfoToDirEntry aInfo) aInfo aFile,
     .dir (FileInfoToDirEntry bInfo) bInfo [.file (FileInfoToDirEntry cInfo) cInfo cFile]]

/-- A view that is one empty directory. -/
def emptyDirFS : FS where
  stat := fun p => if p = "." then .ok rootInfo else .error (Error.other "file does not exist")
  readDir := fun _ => ([], none)
  openFile := fun _ => .error (Error.other "is a directory")

/-! ## Describing what the calls did -/

/-- The `Write` calls a successful copy makes for the reads of a file: one for
each read that delivered bytes, until a read returns an error or `io.EOF`. -/
def writesOf : List (Bytes × Option Error) → List Event
  | [] => []
  | (p, none) :: rest => (if p.length > 0 then [Event.Write p] else []) ++ writesOf rest
  | (p, some _) :: _ => if p.length > 0 then [Event.Write p] else []

/-- The bytes passed to `Write` by the calls of a trace, concatenated. -/
def writtenBytes : List Event → Bytes
  | [] => []
  | Event.Write p :: rest => p ++ writtenBytes rest
  | _ :: rest => writtenBytes rest

/-- The header `addFile` writes for an entry with info `info` at walk path `p`
under mount path `dir`. -/
def headerFor (dir p : String) (modTime : Nat) (info : FileInfo) : Header :=
  if info.IsDir then
    { Typeflag := TypeDir, Name := pathJoin dir (ToSlash p) ++ "/", ModTime := modTime, Size := 0 }
  else
    { Typeflag := TypeReg, Name := pathJoin dir (ToSlash p), ModTime := modTime,
      Size := info.size }

/-- A call only appends to the manifest: when it returns, the manifest it leaves
is the one it found followed by the entries it added. -/
def AppendsOnly (f : Collector → Outcome (Option Error × Collector)) : Prop :=
  ∀ c e c1, f c = .ret (e, c1) → ∃ added, c1.files = c.files ++ added

/-- The call `fM`, made under the limit `M`, against the same call `fK` made under
a higher limit: from a manifest within `M`, when `fK` returns with a manifest
within `M` then `fM` returns the same; when `fK` returns with a manifest beyond
`M` then `fM` returns `ErrTooManyFiles` with the first `M + 1` entries of it. -/
def CapSim (M : Nat) (fK fM : Collector → Outcome (Option Error × Collector)) : Prop :=
  ∀ c e c1, c.files.length ≤ M → fK c = .ret (e, c1) →
    (c1.files.length ≤ M ∧ fM c = .ret (e, c1)) ∨
    (M < c1.files.length ∧
      ∃ cM, fM c = .ret (some ErrTooManyFiles, cM) ∧ cM.files = c1.files.take (M + 1))

/-- A freshly made collector over `closableWriter`, after `Close`. -/
def closedCollector : Collector :=
  Collector.Close
    { files := [], modTime := 0, closed := false, comp := some {},
      writer := some closableWriter, io := [] }

/-- A cache whose lock table holds an unlocked mutex for the key `x`, whose store
is empty and whose loader fails. -/
def lockedTableCache : ContentCache :=
  { m := [("x", { locked := false })],
    cache := { MaxCost := contentCacheSize, items := [] },
    load := fun _ => (none, some (Error.other "load failed")) }

/-! # Theorems -/

/-! ## ContentCache -/

theorem Get_miss (r : Ristretto) (id : String) (h : (r.Get id).2 ≠ true) :
    r.Get id = (none, false) := by
  unfold Ristretto.Get at h ⊢
  cases hl : r.items.lookup id with
  | none => rfl
  | some v => simp [hl] at h

/-- C5: on a key that is not resident `getContent` never returns, whatever the
loader does (so it does not return the error of the loader): it panics on the
nil mutex, blocks, or panics on the type assertion made before `found` is
looked at. The store is left as it was. -/
theorem getContent_miss_never_returns (c : ContentCache) (id : String)
    (hmiss : ¬ c.resident id) :
    (∀ v, (c.getContent id).1 ≠ Outcome.ret v) ∧ (c.getContent id).2.cache = c.cache := by
  have hget : c.cache.Get id = (none, false) := Get_miss _ _ hmiss
  unfold ContentCache.getContent
  cases hl : c.m.lookup id with
  | none => simp
  | some mu =>
    by_cases hlock : mu.locked = true
    · simp [hlock]
    · simp [hlock, hget]

/-- A cache with a lock for the key, an empty store and a failing loader: the key is
not resident and `getContent` panics. -/
theorem getContent_miss_never_returns_witness :
    ¬ lockedTableCache.resident "x" ∧
    ((∀ v, (lockedTableCache.getContent "x").1 ≠ Outcome.ret v) ∧
      (lockedTableCache.getContent "x").2.cache = lockedTableCache.cache) :=
  ⟨by unfold ContentCache.resident; decide,
    getContent_miss_never_returns lockedTableCache "x" (by unfold ContentCache.resident; decide)⟩

/-- C6: on a cache as `NewContentCache` makes it, `getContent` of any key panics
on the nil mutex of the empty lock table, before the loader is called and
without anything being stored: no lock is created for a key that has none. -/
theorem getContent_fresh_panics (load : String → Option Bytes × Option Error) (id : String) :
    (NewContentCache load).getContent id =
      (Outcome.panic "invalid memory address or nil pointer dereference", NewContentCache load) := by
  simp [ContentCache.getContent, NewContentCache]

/-! ## Close -/

/-- C8: `Close` is idempotent. A second call changes nothing, neither the state
nor the trace; a call on a collector that is not closed closes the archive
writer if it is set and then the compressor if it is set, in that order, and
marks the collector closed; a call on a closed collector closes nothing. -/
theorem Close_idempotent (c : Collector) :
    c.Close.Close = c.Close ∧ c.Close.closed = true ∧
    c.Close.io = c.io ++ (if c.closed then [] else
      (if c.writer.isSome then [Event.CloseWriter] else []) ++
      (if c.comp.isSome then [Event.CloseEncoder] else [])) ∧
    c.Close.files = c.files := by
  unfold Collector.Close
  by_cases hc : c.closed = true
  · simp [hc]
  · cases hw : c.writer.isSome <;> cases hz : c.comp.isSome <;> simp [hc, hw, hz]

/-! ## AddFile -/

theorem AddFileRepeat_spec (H : FileHash) (path : String) (data : Bytes) (w : TarWriter) :
    ∀ (n : Nat) (c : Collector), c.writer = some w →
      ∃ c1, AddFileRepeat H path data n c = Outcome.ret (none, c1) ∧
        c1.files.length = c.files.length + n ∧ c1.writer = some w := by
  intro n
  induction n with
  | zero => intro c hw; exact ⟨c, rfl, rfl, hw⟩
  | succ n ih =>
    intro c hw
    have hstep : ∃ c2, c.AddFile H path data = Outcome.ret (none, c2) ∧
        c2.files.length = c.files.length + 1 ∧ c2.writer = some w := by
      simp [Collector.AddFile, hw]
    obtain ⟨c2, h2, hlen2, hw2⟩ := hstep
    obtain ⟨c1, h1, hlen1, hw1⟩ := ih c2 hw2
    refine ⟨c1, ?_, ?_, hw1⟩
    · simp [AddFileRepeat, h2, h1]
    · omega

/-- C9: `AddFile` appends to the manifest without looking at `MaxFiles`: from
the collector `NewCollector` makes, `MaxFiles + 1` calls of `AddFile` all return
nil and leave `MaxFiles + 1` entries in `Files()`. -/
theorem AddFile_exceeds_MaxFiles (MaxFiles : Nat) (H : FileHash) (modTime : Nat)
    (enc : ZstdEncoder) (w : TarWriter) (path : String) (data : Bytes) :
    ∃ c c1, NewCollector modTime (.ok enc) w = (some c, none) ∧
      AddFileRepeat H path data (MaxFiles + 1) c = Outcome.ret (none, c1) ∧
      c1.Files.length = MaxFiles + 1 ∧ MaxFiles < c1.Files.length := by
  obtain ⟨c1, h1, hlen, _⟩ := AddFileRepeat_spec H path data w (MaxFiles + 1)
    { files := [], modTime := modTime, closed := false, comp := some enc, writer := some w,
      io := [] } rfl
  refine ⟨_, c1, rfl, h1, ?_, ?_⟩
  · simpa [Collector.Files] using hlen
  · simp [Collector.Files, hlen]

/-! ## The copy through the tee -/

theorem writtenBytes_append (a b : List Event) :
    writtenBytes (a ++ b) = writtenBytes a ++ writtenBytes b := by
  induction a with
  | nil => rfl
  | cons e rest ih => cases e <;> simp [writtenBytes, ih]

/-- The writes of a copy carry the bytes read. -/
theorem writtenBytes_writesOf (reads : List (Bytes × Option Error)) :
    writtenBytes (writesOf reads) = readBytes reads := by
  induction reads with
  | nil => rfl
  | cons r rest ih =>
    obtain ⟨p, er⟩ := r
    cases er with
    | none =>
      by_cases hp : p.length > 0
      · simp [writesOf, readBytes, writtenBytes, hp, ih]
      · have : p = [] := by
          cases p with
          | nil => rfl
          | cons _ _ => simp at hp
        simp [writesOf, readBytes, writtenBytes, this, ih]
    | some e =>
      by_cases hp : p.length > 0
      · simp [writesOf, readBytes, writtenBytes, hp]
      · have : p = [] := by
          cases p with
          | nil => rfl
          | cons _ _ => simp at hp
        simp [writesOf, readBytes, writtenBytes, this]

/-- Under the contract, hashing the reads is hashing the bytes read at once. -/
theorem hashReads_streaming (H : FileHash) (hH : H.Streaming) :
    ∀ (reads : List (Bytes × Option Error)) (h : H.State),
      hashReads H reads h = H.Write h (readBytes reads) := by
  intro reads
  induction reads with
  | nil => intro h; simp [hashReads, readBytes, hH.write_nil]
  | cons r rest ih =>
    intro h
    obtain ⟨p, er⟩ := r
    cases er with
    | none =>
      by_cases hp : p.length > 0
      · simp [hashReads, readBytes, teeRead, hp, ih, hH.write_append]
      · have : p = [] := by
          cases p with
          | nil => rfl
          | cons _ _ => simp at hp
        simp [hashReads, readBytes, teeRead, this, ih]
    | some e =>
      by_cases hp : p.length > 0
      · simp [hashReads, readBytes, teeRead, hp]
      · have : p = [] := by
          cases p with
          | nil => rfl
          | cons _ _ => simp at hp
        simp [hashReads, readBytes, teeRead, this, hH.write_nil]

/-- A copy that ends without error has passed to the hasher and to the writer
the bytes of the reads made. -/
theorem ioCopy_ok (H : FileHash) (w : TarWriter) :
    ∀ (reads : List (Bytes × Option Error)) (h : H.State) (io : List Event)
      (h1 : H.State) (io1 : List Event),
      ioCopy H w reads h io = (none, h1, io1) →
      h1 = hashReads H reads h ∧ io1 = io ++ writesOf reads := by
  intro reads
  induction reads with
  | nil =>
    intro h io h1 io1 hc
    simp [ioCopy] at hc
    simp [hashReads, writesOf, hc.1, hc.2]
  | cons r rest ih =>
    intro h io h1 io1 hc
    obtain ⟨p, er⟩ := r
    by_cases hp : p.length > 0
    · have hnr : (0 : Int) < (p.length : Int) := by exact_mod_cast hp
      rcases hw : w.Write io p with ⟨nw, ew⟩
      simp only [ioCopy, teeRead, hp, Int.ofNat_eq_coe, hnr, if_true, gt_iff_lt, hw] at hc
      by_cases hbad : nw < 0 ∨ (p.length : Int) < nw
      · cases ew <;> simp [hbad] at hc
      · simp only [hbad, if_false] at hc
        cases ew with
        | some e => simp at hc
        | none =>
          by_cases hsw : (p.length : Int) = nw
          · simp only [hsw, ne_eq, not_true_eq_false, if_false] at hc
            cases er with
            | some e =>
              by_cases he : e = Error.EOF
              · simp [he] at hc
                simp [hashReads, writesOf, teeRead, hp, hc.1, hc.2]
              · simp [he] at hc
            | none =>
              have h2 := ih _ _ _ _ hc
              simp [hashReads, writesOf, teeRead, hp, h2.1, h2.2]
          · simp [hsw] at hc
    · have hp0 : p = [] := by
        cases p with
        | nil => rfl
        | cons _ _ => simp at hp
      subst hp0
      simp only [ioCopy, teeRead, List.length_nil, gt_iff_lt, lt_self_iff_false, if_false,
        Int.ofNat_eq_coe, Nat.cast_zero] at hc
      cases er with
      | some e =>
        by_cases he : e = Error.EOF
        · simp [he] at hc
          simp [hashReads, writesOf, teeRead, hc.1, hc.2]
        · simp [he] at hc
      | none =>
        have h2 := ih _ _ _ _ hc
        simp [hashReads, writesOf, teeRead, h2.1, h2.2]

/-- A copy from reads none of which fails to a writer that never fails ends
without error. -/
theorem ioCopy_good (H : FileHash) (w : TarWriter) (hw : w.neverFails) :
    ∀ (reads : List (Bytes × Option Error)) (h : H.State) (io : List Event),
      goodReads reads = true →
      ioCopy H w reads h io = (none, hashReads H reads h, io ++ writesOf reads) := by
  intro reads
  induction reads with
  | nil => intro h io _; simp [ioCopy, hashReads, writesOf]
  | cons r rest ih =>
    intro h io hg
    obtain ⟨p, er⟩ := r
    have hwr : w.Write io p = ((p.length : Int), none) := hw.2 io p
    by_cases hp : p.length > 0
    · have hnr : (0 : Int) < (p.length : Int) := by exact_mod_cast hp
      have hnr2 : ¬ (p.length : Int) < 0 := by omega
      cases er with
      | none =>
        simp only [goodReads] at hg
        simp [ioCopy, teeRead, hp, hwr, hnr2, hashReads, writesOf, ih _ _ hg]
      | some e =>
        simp only [goodReads, decide_eq_true_eq] at hg
        simp [ioCopy, teeRead, hp, hwr, hnr2, hashReads, writesOf, hg]
    · have hp0 : p = [] := by
        cases p with
        | nil => rfl
        | cons _ _ => simp at hp
      subst hp0
      cases er with
      | none =>
        simp only [goodReads] at hg
        simp [ioCopy, teeRead, hashReads, writesOf, ih _ _ hg]
      | some e =>
        simp only [goodReads, decide_eq_true_eq] at hg
        simp [ioCopy, teeRead, hashReads, writesOf, hg]

/-! ## addFile -/

/-- On a directory `addFile` writes the header and returns the entry of the
directory. -/
theorem addFile_dir (H : FileHash) (fsys : FS) (p : String) (d : DirEntry) (dir : String)
    (modTime : Nat) (w : TarWriter) (io : List Event) (info : FileInfo)
    (hinfo : d.info = .ok info) (hdir : info.IsDir = true) :
    addFile H fsys p d dir modTime (some w) io =
      .ret ((entryFor dir p info "", none), io ++ [Event.WriteHeader (headerFor dir p modTime info)]) := by
  simp [addFile, hinfo, hdir, entryFor, headerFor]

/-- When `addFile` returns an entry for a file, it has written the header and the
bytes read, and the entry carries the digest the hasher gives for them. -/
theorem addFile_file_ok (H : FileHash) (fsys : FS) (p : String) (d : DirEntry) (dir : String)
    (modTime : Nat) (w : TarWriter) (io : List Event) (info : FileInfo) (file : File)
    (entry : FileEntry) (io1 : List Event)
    (hinfo : d.info = .ok info) (hreg : info.IsDir = false)
    (hopen : fsys.openFile p = .ok file)
    (hret : addFile H fsys p d dir modTime (some w) io = .ret ((entry, none), io1)) :
    entry = entryFor dir p info (H.Sum (hashReads H file.reads H.New)) ∧
    io1 = io ++ Event.WriteHeader (headerFor dir p modTime info) :: writesOf file.reads := by
  simp only [addFile, hinfo, hreg, hopen] at hret
  rcases hc : ioCopy H w file.reads H.New
      (io ++ [Event.WriteHeader (headerFor dir p modTime info)]) with ⟨err, h1, io2⟩
  have hhdr : headerFor dir p modTime info =
      { Typeflag := TypeReg, Name := pathJoin dir (ToSlash p), ModTime := modTime,
        Size := info.size } := by simp [headerFor, hreg]
  rw [hhdr] at hc
  simp [hc] at hret
  cases err with
  | some e => simp at hret
  | none =>
    simp at hret
    obtain ⟨h2, h3⟩ := ioCopy_ok H w _ _ _ _ _ hc
    subst h2
    refine ⟨?_, ?_⟩
    · rw [← hret.1]; simp [entryFor, hreg]
    · rw [← hret.2, h3, hhdr]; simp

/-- On a file whose reads do not fail `addFile`, given a writer that never fails,
returns the entry of the file. -/
theorem addFile_file_good (H : FileHash) (fsys : FS) (p : String) (d : DirEntry) (dir : String)
    (modTime : Nat) (w : TarWriter) (io : List Event) (info : FileInfo) (file : File)
    (hw : w.neverFails)
    (hinfo : d.info = .ok info) (hreg : info.IsDir = false)
    (hopen : fsys.openFile p = .ok file) (hgood : goodReads file.reads = true) :
    addFile H fsys p d dir modTime (some w) io =
      .ret ((entryFor dir p info (H.Sum (hashReads H file.reads H.New)), none),
        io ++ Event.WriteHeader (headerFor dir p modTime info) :: writesOf file.reads) := by
  have hc := ioCopy_good H w hw file.reads H.New
    (io ++ [Event.WriteHeader (headerFor dir p modTime info)]) hgood
  have hhdr : headerFor dir p modTime info =
      { Typeflag := TypeReg, Name := pathJoin dir (ToSlash p), ModTime := modTime,
        Size := info.size } := by simp [headerFor, hreg]
  rw [hhdr] at hc
  simp [addFile, hinfo, hreg, hopen, hc, entryFor, hhdr]

/-! ## The walk, unfolded for the walker of Collect -/

theorem walker_err (M : Nat) (H : FileHash) (fsys : FS) (dir : String) (f : Nat) (p : String)
    (d : Option DirEntry) (re : Error) (c : Collector) :
    walker M H fsys dir f p d (some re) c = .ret (some re, c) := by
  cases f <;> simp [walker, walkerBody]

/-- The function `walkDir` with the walker of `Collect` as its function. -/
theorem walkDir_walker_eq (M : Nat) (H : FileHash) (fsys : FS) (dir : String) (f fuel : Nat)
    (name : String) (d : DirEntry) (c : Collector) :
    walkDir fsys (walker M H fsys dir f) fuel name d c =
      match walker M H fsys dir f name (some d) none c with
      | .panic msg => .panic msg
      | .diverge => .diverge
      | .ret (e0, c0) =>
        if e0 ≠ none ∨ d.IsDir = false then
          .ret (if e0 = some Error.SkipDir ∧ d.IsDir = true then none else e0, c0)
        else
          match (fsys.readDir name).2 with
          | some re => .ret (if re = Error.SkipDir ∧ d.IsDir = true then none else some re, c0)
          | none =>
            match fuel with
            | 0 => .diverge
            | n + 1 =>
              walkDirLoop (walkDir fsys (walker M H fsys dir f) n) name (fsys.readDir name).1 c0 := by
  conv_lhs => unfold walkDir
  cases hw : walker M H fsys dir f name (some d) none c with
  | panic msg => rfl
  | diverge => rfl
  | ret r =>
    obtain ⟨e0, c0⟩ := r
    by_cases hcond : e0 ≠ none ∨ d.IsDir = false
    · simp [hcond]
    · rcases hrd : fsys.readDir name with ⟨dirs, rerr⟩
      cases rerr with
      | some re => simp [hcond, hrd, walker_err]
      | none => simp [hcond, hrd]

/-- The function `WalkDir`, unfolded. -/
theorem WalkDir_eq {σ : Type} (fsys : FS) (fuel : Nat) (root : String) (fn : WalkDirFunc σ)
    (s : σ) :
    WalkDir fsys fuel root fn s =
      match (match fsys.stat root with
        | .error err => fn root none (some err) s
        | .ok info => walkDir fsys fn fuel root (FileInfoToDirEntry info) s) with
      | .ret (err, s) =>
        if err = some Error.SkipDir ∨ err = some Error.SkipAll then .ret (none, s)
        else .ret (err, s)
      | .panic msg => .panic msg
      | .diverge => .diverge := rfl

/-! ## The walker, unfolded -/

theorem walkerBody_link (M : Nat) (H : FileHash) (fsys : FS) (dir : String)
    (rewalk : String → Collector → Outcome (Option Error × Collector)) (p : String)
    (d : DirEntry) (c : Collector) (hl : d.typ &&& ModeSymlink = ModeSymlink) :
    walkerBody M H fsys dir rewalk p (some d) none c = rewalk p c := by
  simp [walkerBody, hl]

/-- On an entry that is not a symlink the walker calls `addFile` and appends what
it returns. -/
theorem walkerBody_nolink (M : Nat) (H : FileHash) (fsys : FS) (dir : String)
    (rewalk : String → Collector → Outcome (Option Error × Collector)) (p : String)
    (d : DirEntry) (c : Collector) (hl : ¬ d.typ &&& ModeSymlink = ModeSymlink) :
    walkerBody M H fsys dir rewalk p (some d) none c =
      match addFile H fsys p d dir c.modTime c.writer c.io with
      | .panic msg => .panic msg
      | .diverge => .diverge
      | .ret ((_, some e), io1) => .ret (some e, { c with io := io1 })
      | .ret ((entry, none), io1) =>
        .ret (if M < c.files.length + 1 then some ErrTooManyFiles else none,
          { c with files := c.files ++ [entry], io := io1 }) := by
  simp only [walkerBody, hl, if_false]
  cases ha : addFile H fsys p d dir c.modTime c.writer c.io with
  | panic msg => rfl
  | diverge => rfl
  | ret r =>
    obtain ⟨⟨entry, aerr⟩, io1⟩ := r
    cases aerr with
    | some ae => rfl
    | none =>
      by_cases hcap : M < c.files.length + 1
      · simp [hcap]
      · simp [hcap]

/-! ## The walk only appends to the manifest -/

theorem walkerBody_appends (M : Nat) (H : FileHash) (fsys : FS) (dir : String)
    (rewalk : String → Collector → Outcome (Option Error × Collector))
    (hre : ∀ p, AppendsOnly (rewalk p)) (p : String) (d : Option DirEntry)
    (err : Option Error) : AppendsOnly (walkerBody M H fsys dir rewalk p d err) := by
  intro c e c1 h
  cases err with
  | some re => simp [walkerBody] at h; exact ⟨[], by simp [← h.2]⟩
  | none =>
    cases d with
    | none => simp [walkerBody] at h
    | some d =>
      by_cases hl : d.typ &&& ModeSymlink = ModeSymlink
      · rw [walkerBody_link _ _ _ _ _ _ _ _ hl] at h
        exact hre p c e c1 h
      · rw [walkerBody_nolink _ _ _ _ _ _ _ _ hl] at h
        cases ha : addFile H fsys p d dir c.modTime c.writer c.io with
        | panic msg => simp [ha] at h
        | diverge => simp [ha] at h
        | ret r =>
          obtain ⟨⟨entry, aerr⟩, io1⟩ := r
          cases aerr with
          | some ae => simp [ha] at h; exact ⟨[], by simp [← h.2]⟩
          | none => simp [ha] at h; exact ⟨[entry], by simp [← h.2]⟩

/-- The loop over the entries of a directory only appends. -/
theorem walkDirLoop_appends (step : String → DirEntry → Collector → Outcome (Option Error × Collector))
    (hstep : ∀ name d, AppendsOnly (step name d)) (name : String) :
    ∀ (ds : List DirEntry), AppendsOnly (walkDirLoop step name ds) := by
  intro ds
  induction ds with
  | nil =>
    intro c e c1 h
    simp [walkDirLoop] at h
    exact ⟨[], by simp [← h.2]⟩
  | cons d1 rest ih =>
    intro c e c1 h
    simp only [walkDirLoop] at h
    cases hs : step (pathJoin name d1.name) d1 c with
    | panic msg => simp [hs] at h
    | diverge => simp [hs] at h
    | ret r =>
      obtain ⟨e2, c2⟩ := r
      obtain ⟨a2, h2⟩ := hstep _ _ _ _ _ hs
      cases e2 with
      | none =>
        simp only [hs] at h
        obtain ⟨a3, h3⟩ := ih _ _ _ h
        exact ⟨a2 ++ a3, by rw [h3, h2, List.append_assoc]⟩
      | some err =>
        simp only [hs] at h
        by_cases hsk : err = Error.SkipDir
        · simp [hsk] at h; exact ⟨a2, by rw [← h.2, h2]⟩
        · simp [hsk] at h; exact ⟨a2, by rw [← h.2, h2]⟩

/-- The walk of an entry only appends. -/
theorem walkDir_appends (M : Nat) (H : FileHash) (fsys : FS) (dir : String) (f : Nat)
    (hW : ∀ p d err, AppendsOnly (walker M H fsys dir f p d err)) :
    ∀ (fuel : Nat) (name : String) (d : DirEntry),
      AppendsOnly (walkDir fsys (walker M H fsys dir f) fuel name d) := by
  intro fuel
  induction fuel with
  | zero =>
    intro name d c e c1 h
    rw [walkDir_walker_eq] at h
    cases hw : walker M H fsys dir f name (some d) none c with
    | panic msg => simp [hw] at h
    | diverge => simp [hw] at h
    | ret r =>
      obtain ⟨e0, c0⟩ := r
      obtain ⟨a0, h0⟩ := hW _ _ _ _ _ _ hw
      simp only [hw] at h
      by_cases hcond : e0 ≠ none ∨ d.IsDir = false
      · simp only [hcond, if_true] at h
        simp at h; exact ⟨a0, by rw [← h.2, h0]⟩
      · simp only [hcond, if_false] at h
        cases hrd : (fsys.readDir name).2 with
        | some re => simp [hrd] at h; exact ⟨a0, by rw [← h.2, h0]⟩
        | none => simp [hrd] at h
  | succ n ih =>
    intro name d c e c1 h
    rw [walkDir_walker_eq] at h
    cases hw : walker M H fsys dir f name (some d) none c with
    | panic msg => simp [hw] at h
    | diverge => simp [hw] at h
    | ret r =>
      obtain ⟨e0, c0⟩ := r
      obtain ⟨a0, h0⟩ := hW _ _ _ _ _ _ hw
      simp only [hw] at h
      by_cases hcond : e0 ≠ none ∨ d.IsDir = false
      · simp only [hcond, if_true] at h
        simp at h; exact ⟨a0, by rw [← h.2, h0]⟩
      · simp only [hcond, if_false] at h
        cases hrd : (fsys.readDir name).2 with
        | some re => simp [hrd] at h; exact ⟨a0, by rw [← h.2, h0]⟩
        | none =>
          simp only [hrd] at h
          obtain ⟨a3, h3⟩ := walkDirLoop_appends _ (fun nm d1 => ih nm d1) name _ _ _ _ h
          exact ⟨a0 ++ a3, by rw [h3, h0, List.append_assoc]⟩

/-- The walk from a root only appends. -/
theorem WalkDir_appends (M : Nat) (H : FileHash) (fsys : FS) (dir : String) (f : Nat)
    (hW : ∀ p d err, AppendsOnly (walker M H fsys dir f p d err)) (fuel : Nat) (root : String) :
    AppendsOnly (WalkDir fsys fuel root (walker M H fsys dir f)) := by
  intro c e c1 h
  rw [WalkDir_eq] at h
  cases hst : fsys.stat root with
  | error serr =>
    simp only [hst, walker_err] at h
    by_cases hsk : serr = Error.SkipDir ∨ serr = Error.SkipAll
    · simp [hsk] at h; exact ⟨[], by simp [← h.2]⟩
    · simp [hsk] at h; exact ⟨[], by simp [← h.2]⟩
  | ok info =>
    simp only [hst] at h
    cases hw : walkDir fsys (walker M H fsys dir f) fuel root (FileInfoToDirEntry info) c with
    | panic msg => simp [hw] at h
    | diverge => simp [hw] at h
    | ret r =>
      obtain ⟨e0, c0⟩ := r
      obtain ⟨a0, h0⟩ := walkDir_appends M H fsys dir f hW fuel root _ _ _ _ hw
      simp only [hw] at h
      by_cases hsk : e0 = some Error.SkipDir ∨ e0 = some Error.SkipAll
      · simp [hsk] at h; exact ⟨a0, by rw [← h.2, h0]⟩
      · simp [hsk] at h; exact ⟨a0, by rw [← h.2, h0]⟩

/-- The walker only appends, whatever the fuel. -/
theorem walker_appends (M : Nat) (H : FileHash) (fsys : FS) (dir : String) :
    ∀ (f : Nat) (p : String) (d : Option DirEntry) (err : Option Error),
      AppendsOnly (walker M H fsys dir f p d err) := by
  intro f
  induction f with
  | zero =>
    intro p d err
    exact walkerBody_appends M H fsys dir _ (fun _ c e c1 h => by simp at h) p d err
  | succ n ih =>
    intro p d err
    exact walkerBody_appends M H fsys dir _
      (fun q => WalkDir_appends M H fsys dir n ih n q) p d err

/-- The method `Collect` only appends. -/
theorem Collect_appends (M : Nat) (H : FileHash) (fuel : Nat) (fsys : FS) (dir : String) :
    AppendsOnly (fun c => c.Collect M H fuel fsys dir) :=
  WalkDir_appends M H fsys dir fuel (walker_appends M H fsys dir fuel) fuel "."

/-! ## The walk under a lower limit -/

theorem take_of_abort {M : Nat} {l0 l1 lM a : List FileEntry} (hlen : M < l0.length)
    (hM : lM = l0.take (M + 1)) (hext : l1 = l0 ++ a) :
    M < l1.length ∧ lM = l1.take (M + 1) := by
  subst hext
  refine ⟨by simp; omega, ?_⟩
  rw [hM, List.take_append_of_le_length (by omega)]

/-- The walker under the lower limit against the walker under the higher one. -/
theorem walkerBody_sim (K M : Nat) (hle : M ≤ K) (H : FileHash) (fsys : FS) (dir : String)
    (rewalkK rewalkM : String → Collector → Outcome (Option Error × Collector))
    (hre : ∀ p, CapSim M (rewalkK p) (rewalkM p)) (p : String) (d : Option DirEntry)
    (err : Option Error) :
    CapSim M (walkerBody K H fsys dir rewalkK p d err) (walkerBody M H fsys dir rewalkM p d err) := by
  intro c e c1 hlen h
  cases err with
  | some re =>
    simp [walkerBody] at h
    left
    refine ⟨by rw [← h.2]; exact hlen, ?_⟩
    simp [walkerBody, h.1, h.2]
  | none =>
    cases d with
    | none => simp [walkerBody] at h
    | some d =>
      by_cases hl : d.typ &&& ModeSymlink = ModeSymlink
      · rw [walkerBody_link _ _ _ _ _ _ _ _ hl] at h ⊢
        exact hre p c e c1 hlen h
      · rw [walkerBody_nolink _ _ _ _ _ _ _ _ hl] at h ⊢
        cases ha : addFile H fsys p d dir c.modTime c.writer c.io with
        | panic msg => simp [ha] at h
        | diverge => simp [ha] at h
        | ret r =>
          obtain ⟨⟨entry, aerr⟩, io1⟩ := r
          cases aerr with
          | some ae =>
            simp [ha] at h
            left
            refine ⟨by rw [← h.2]; exact hlen, ?_⟩
            simp [h.1, h.2]
          | none =>
            simp only [ha] at h
            simp only [Outcome.ret.injEq, Prod.mk.injEq] at h
            obtain ⟨he, hc⟩ := h
            by_cases hcap : M < c.files.length + 1
            · right
              have hlen1 : c1.files.length = M + 1 := by
                rw [← hc]; simp; omega
              refine ⟨by omega, c1, ?_, ?_⟩
              · simp [hcap, hc]
              · rw [← hlen1, List.take_length]
            · left
              have hK : ¬ K < c.files.length + 1 := by omega
              refine ⟨by rw [← hc]; simp; omega, ?_⟩
              simp [hcap, hK] at he ⊢
              simp [← he, hc]

/-- The loop under the lower limit against the loop under the higher one. -/
theorem walkDirLoop_sim (M : Nat)
    (stepK stepM : String → DirEntry → Collector → Outcome (Option Error × Collector))
    (hsim : ∀ name d, CapSim M (stepK name d) (stepM name d))
    (happ : ∀ name d, AppendsOnly (stepK name d)) (name : String) :
    ∀ (ds : List DirEntry), CapSim M (walkDirLoop stepK name ds) (walkDirLoop stepM name ds) := by
  intro ds
  induction ds with
  | nil =>
    intro c e c1 hlen h
    simp [walkDirLoop] at h
    left
    exact ⟨by rw [← h.2]; exact hlen, by simp [walkDirLoop, h.1, h.2]⟩
  | cons d1 rest ih =>
    intro c e c1 hlen h
    have happK := walkDirLoop_appends stepK happ name rest
    simp only [walkDirLoop] at h ⊢
    cases hs : stepK (pathJoin name d1.name) d1 c with
    | panic msg => simp [hs] at h
    | diverge => simp [hs] at h
    | ret r =>
      obtain ⟨e2, c2⟩ := r
      simp only [hs] at h
      rcases hsim _ _ _ _ _ hlen hs with ⟨hlen2, hM⟩ | ⟨hlen2, cM, hM, htake⟩
      · -- the two walks agree on this entry
        rw [hM]
        cases e2 with
        | none => exact ih _ _ _ hlen2 h
        | some err =>
          left
          by_cases hsk : err = Error.SkipDir
          · simp [hsk] at h ⊢
            exact ⟨by rw [← h.2]; exact hlen2, h.1, h.2⟩
          · simp [hsk] at h ⊢
            exact ⟨by rw [← h.2]; exact hlen2, h.1, h.2⟩
      · -- the walk under the lower limit has stopped
        right
        have hext : ∃ a, c1.files = c2.files ++ a := by
          cases e2 with
          | none => exact happK _ _ _ h
          | some err =>
            by_cases hsk : err = Error.SkipDir
            · simp [hsk] at h; exact ⟨[], by simp [← h.2]⟩
            · simp [hsk] at h; exact ⟨[], by simp [← h.2]⟩
        obtain ⟨a, ha⟩ := hext
        obtain ⟨h1, h2⟩ := take_of_abort hlen2 htake ha
        exact ⟨h1, cM, by simp [hM, ErrTooManyFiles], h2⟩

/-- The walk of an entry under the lower limit against that under the higher one. -/
theorem walkDir_sim (K M : Nat) (H : FileHash) (fsys : FS) (dir : String) (f : Nat)
    (hW : ∀ p d err, CapSim M (walker K H fsys dir f p d err) (walker M H fsys dir f p d err)) :
    ∀ (fuel : Nat) (name : String) (d : DirEntry),
      CapSim M (walkDir fsys (walker K H fsys dir f) fuel name d)
        (walkDir fsys (walker M H fsys dir f) fuel name d) := by
  intro fuel
  induction fuel with
  | zero =>
    intro name d c e c1 hlen h
    rw [walkDir_walker_eq] at h ⊢
    cases hw : walker K H fsys dir f name (some d) none c with
    | panic msg => simp [hw] at h
    | diverge => simp [hw] at h
    | ret r =>
      obtain ⟨e0, c0⟩ := r
      simp only [hw] at h
      have hrest : ∃ a, c1.files = c0.files ++ a := by
        by_cases hcond : e0 ≠ none ∨ d.IsDir = false
        · simp only [hcond, if_true] at h
          simp at h; exact ⟨[], by simp [← h.2]⟩
        · simp only [hcond, if_false] at h
          cases hrd : (fsys.readDir name).2 with
          | some re => simp [hrd] at h; exact ⟨[], by simp [← h.2]⟩
          | none => simp [hrd] at h
      rcases hW _ _ _ _ _ _ hlen hw with ⟨hlen0, hM⟩ | ⟨hlen0, cM, hM, htake⟩
      · rw [hM]
        simp only []
        by_cases hcond : e0 ≠ none ∨ d.IsDir = false
        · simp only [hcond, if_true] at h ⊢
          left
          simp at h
          exact ⟨by rw [← h.2]; exact hlen0, by simp [h.1, h.2]⟩
        · simp only [hcond, if_false] at h ⊢
          cases hrd : (fsys.readDir name).2 with
          | some re =>
            left
            simp [hrd] at h ⊢
            exact ⟨by rw [← h.2]; exact hlen0, by simp [h.1, h.2]⟩
          | none => simp [hrd] at h
      · right
        obtain ⟨a, ha⟩ := hrest
        obtain ⟨h1, h2⟩ := take_of_abort hlen0 htake ha
        exact ⟨h1, cM, by simp [hM, ErrTooManyFiles], h2⟩
  | succ n ih =>
    intro name d c e c1 hlen h
    rw [walkDir_walker_eq] at h ⊢
    have hA := walker_appends K H fsys dir f
    cases hw : walker K H fsys dir f name (some d) none c with
    | panic msg => simp [hw] at h
    | diverge => simp [hw] at h
    | ret r =>
      obtain ⟨e0, c0⟩ := r
      simp only [hw] at h
      have hrest : ∃ a, c1.files = c0.files ++ a := by
        by_cases hcond : e0 ≠ none ∨ d.IsDir = false
        · simp only [hcond, if_true] at h
          simp at h; exact ⟨[], by simp [← h.2]⟩
        · simp only [hcond, if_false] at h
          cases hrd : (fsys.readDir name).2 with
          | some re => simp [hrd] at h; exact ⟨[], by simp [← h.2]⟩
          | none =>
            simp only [hrd] at h
            exact walkDirLoop_appends _
              (fun nm d1 => walkDir_appends K H fsys dir f hA n nm d1) name _ _ _ _ h
      rcases hW _ _ _ _ _ _ hlen hw with ⟨hlen0, hM⟩ | ⟨hlen0, cM, hM, htake⟩
      · rw [hM]
        simp only []
        by_cases hcond : e0 ≠ none ∨ d.IsDir = false
        · simp only [hcond, if_true] at h ⊢
          left
          simp at h
          exact ⟨by rw [← h.2]; exact hlen0, by simp [h.1, h.2]⟩
        · simp only [hcond, if_false] at h ⊢
          cases hrd : (fsys.readDir name).2 with
          | some re =>
            left
            simp [hrd] at h ⊢
            exact ⟨by rw [← h.2]; exact hlen0, by simp [h.1, h.2]⟩
          | none =>
            simp only [hrd] at h ⊢
            exact walkDirLoop_sim M _ _ (fun nm d1 => ih nm d1)
              (fun nm d1 => walkDir_appends K H fsys dir f hA n nm d1) name _ _ _ _ hlen0 h
      · right
        obtain ⟨a, ha⟩ := hrest
        obtain ⟨h1, h2⟩ := take_of_abort hlen0 htake ha
        exact ⟨h1, cM, by simp [hM, ErrTooManyFiles], h2⟩

/-- The walk from a root under the lower limit against that under the higher one. -/
theorem WalkDir_sim (K M : Nat) (H : FileHash) (fsys : FS) (dir : String) (f : Nat)
    (hW : ∀ p d err, CapSim M (walker K H fsys dir f p d err) (walker M H fsys dir f p d err))
    (fuel : Nat) (root : String) :
    CapSim M (WalkDir fsys fuel root (walker K H fsys dir f))
      (WalkDir fsys fuel root (walker M H fsys dir f)) := by
  intro c e c1 hlen h
  rw [WalkDir_eq] at h ⊢
  cases hst : fsys.stat root with
  | error serr =>
    simp only [hst, walker_err] at h ⊢
    left
    by_cases hsk : serr = Error.SkipDir ∨ serr = Error.SkipAll
    · simp [hsk] at h ⊢
      exact ⟨by rw [← h.2]; exact hlen, h.1, h.2⟩
    · simp [hsk] at h ⊢
      exact ⟨by rw [← h.2]; exact hlen, h.1, h.2⟩
  | ok info =>
    simp only [hst] at h ⊢
    cases hw : walkDir fsys (walker K H fsys dir f) fuel root (FileInfoToDirEntry info) c with
    | panic msg => simp [hw] at h
    | diverge => simp [hw] at h
    | ret r =>
      obtain ⟨e0, c0⟩ := r
      simp only [hw] at h
      have hc : c1 = c0 := by
        by_cases hsk : e0 = some Error.SkipDir ∨ e0 = some Error.SkipAll
        · simp [hsk] at h; exact h.2.symm
        · simp [hsk] at h; exact h.2.symm
      subst hc
      rcases walkDir_sim K M H fsys dir f hW fuel root _ _ _ _ hlen hw with
        ⟨hlen0, hM⟩ | ⟨hlen0, cM, hM, htake⟩
      · left
        rw [hM]
        exact ⟨hlen0, h⟩
      · right
        exact ⟨hlen0, cM, by simp [hM, ErrTooManyFiles], htake⟩

/-- The walker under the lower limit against the higher one, whatever the fuel. -/
theorem walker_sim (K M : Nat) (hle : M ≤ K) (H : FileHash) (fsys : FS) (dir : String) :
    ∀ (f : Nat) (p : String) (d : Option DirEntry) (err : Option Error),
      CapSim M (walker K H fsys dir f p d err) (walker M H fsys dir f p d err) := by
  intro f
  induction f with
  | zero =>
    intro p d err
    exact walkerBody_sim K M hle H fsys dir _ _ (fun _ c e c1 _ h => by simp at h) p d err
  | succ n ih =>
    intro p d err
    exact walkerBody_sim K M hle H fsys dir _ _
      (fun q => WalkDir_sim K M H fsys dir n ih n q) p d err

/-- The method `Collect` under the lower limit against the higher one. -/
theorem Collect_sim (K M : Nat) (hle : M ≤ K) (H : FileHash) (fuel : Nat) (fsys : FS)
    (dir : String) :
    CapSim M (fun c => c.Collect K H fuel fsys dir) (fun c => c.Collect M H fuel fsys dir) :=
  WalkDir_sim K M H fsys dir fuel (walker_sim K M hle H fsys dir fuel) fuel "."

/-- C3: take a collector whose manifest holds at most `MaxFiles` entries and a
walk that, under a limit raised to some `K`, returns with a manifest of more than
`MaxFiles` entries (the manifest of a call that does not return counts as
empty). Then `Collect` under the limit `MaxFiles` returns `ErrTooManyFiles`, and
the manifest it leaves is the first `MaxFiles + 1` entries of that of the longer
walk: the walk stopped at the entry that took the manifest beyond `MaxFiles`, and
`Files()` has `MaxFiles + 1` entries. -/
theorem Collect_too_many_files (MaxFiles K : Nat) (H : FileHash) (fuel : Nat) (c : Collector)
    (fsys : FS) (dir : String)
    (hlen : c.Files.length ≤ MaxFiles) (hle : MaxFiles ≤ K)
    (hbeyond : MaxFiles < (c.Collect K H fuel fsys dir).files.length) :
    (c.Collect MaxFiles H fuel fsys dir).error? = some (some ErrTooManyFiles) ∧
    (c.Collect MaxFiles H fuel fsys dir).files =
      (c.Collect K H fuel fsys dir).files.take (MaxFiles + 1) ∧
    (c.Collect MaxFiles H fuel fsys dir).files.length = MaxFiles + 1 ∧
    (c.Collect MaxFiles H fuel fsys dir).files.length ≤ MaxFiles + 1 := by
  cases hK : c.Collect K H fuel fsys dir with
  | panic msg => simp [hK, Outcome.files] at hbeyond
  | diverge => simp [hK, Outcome.files] at hbeyond
  | ret r =>
    obtain ⟨eK, cK⟩ := r
    simp only [hK, Outcome.files, Collector.Files] at hbeyond
    rcases Collect_sim K MaxFiles hle H fuel fsys dir c eK cK hlen hK with
      ⟨hlen0, _⟩ | ⟨_, cM, hM, htake⟩
    · omega
    · have hl : cM.files.length = MaxFiles + 1 := by
        rw [htake, List.length_take]; omega
      simp only [] at hM
      simp [hM, Outcome.error?, Outcome.files, Collector.Files, htake, hl]
      omega

/-- The sample view under the limit 1: the walk stops after 2 of its 4 entries. -/
theorem Collect_too_many_files_witness :
    freshCollector.Files.length ≤ 1 ∧ 1 ≤ 10000 ∧
    1 < (freshCollector.Collect 10000 spellHash 2 sampleFS "/").files.length ∧
    ((freshCollector.Collect 1 spellHash 2 sampleFS "/").error? = some (some ErrTooManyFiles) ∧
    (freshCollector.Collect 1 spellHash 2 sampleFS "/").files =
      (freshCollector.Collect 10000 spellHash 2 sampleFS "/").files.take (1 + 1) ∧
    (freshCollector.Collect 1 spellHash 2 sampleFS "/").files.length = 1 + 1 ∧
    (freshCollector.Collect 1 spellHash 2 sampleFS "/").files.length ≤ 1 + 1) :=
  ⟨by decide, by decide, by decide!,
    Collect_too_many_files 1 10000 spellHash 2 freshCollector sampleFS "/"
      (by decide) (by decide) (by decide!)⟩

/-! ## The walk of a tree -/

theorem walker_nolink (M : Nat) (H : FileHash) (fsys : FS) (dir : String) (f : Nat) (p : String)
    (d : DirEntry) (c : Collector) (hl : ¬ d.typ &&& ModeSymlink = ModeSymlink) :
    walker M H fsys dir f p (some d) none c =
      match addFile H fsys p d dir c.modTime c.writer c.io with
      | .panic msg => .panic msg
      | .diverge => .diverge
      | .ret ((_, some e), io1) => .ret (some e, { c with io := io1 })
      | .ret ((entry, none), io1) =>
        .ret (if M < c.files.length + 1 then some ErrTooManyFiles else none,
          { c with files := c.files ++ [entry], io := io1 }) := by
  cases f <;> simp only [walker] <;> exact walkerBody_nolink _ _ _ _ _ _ _ _ hl

/-- The walker on an entry for which `addFile` returns an entry, within the limit. -/
theorem walker_adds (M : Nat) (H : FileHash) (fsys : FS) (dir : String) (f : Nat) (p : String)
    (d : DirEntry) (c : Collector) (w : TarWriter) (entry : FileEntry) (io1 : List Event)
    (hl : ¬ d.typ &&& ModeSymlink = ModeSymlink) (hw : c.writer = some w)
    (ha : addFile H fsys p d dir c.modTime (some w) c.io = .ret ((entry, none), io1))
    (hcap : c.files.length + 1 ≤ M) :
    ∃ c1, walker M H fsys dir f p (some d) none c = .ret (none, c1) ∧
      c1.files = c.files ++ [entry] ∧ c1.writer = some w := by
  have hlt : ¬ M < c.files.length + 1 := by omega
  refine ⟨{ c with files := c.files ++ [entry], io := io1 }, ?_, rfl, hw⟩
  rw [walker_nolink _ _ _ _ _ _ _ _ hl, hw, ha]
  simp [hlt]

/-- The walk of a tree that the view shows without failure, with a writer that
never fails and room in the manifest for all its entries: it returns nil and
has appended the entries of the tree, one for each file and each directory. -/
theorem walkDir_tree (M : Nat) (H : FileHash) (fsys : FS) (dir : String) (w : TarWriter)
    (hw : w.neverFails) (f : Nat) :
    ∀ (fuel : Nat) (t : Tree) (name : String) (c : Collector),
      t.height ≤ fuel → t.represents fsys name = true → c.writer = some w →
      c.files.length + (t.numFiles + t.numDirs) ≤ M →
      ∃ c1, walkDir fsys (walker M H fsys dir f) fuel name t.entry c = .ret (none, c1) ∧
        c1.files = c.files ++ t.entries H dir name ∧
        c1.files.length = c.files.length + (t.numFiles + t.numDirs) ∧ c1.writer = some w := by
  intro fuel
  induction fuel with
  | zero =>
    intro t name c hh hr hcw hcap
    cases t with
    | file d info fl =>
      simp only [Tree.represents, Bool.and_eq_true, decide_eq_true_eq, Bool.not_eq_true'] at hr
      obtain ⟨⟨⟨⟨⟨hl, hnd⟩, hinfo⟩, hreg⟩, hopen⟩, hgood⟩ := hr
      simp only [Tree.numFiles, Tree.numDirs] at hcap ⊢
      have ha := addFile_file_good H fsys name d dir c.modTime w c.io info fl hw hinfo hreg hopen hgood
      obtain ⟨c1, h1, h2, h3⟩ := walker_adds M H fsys dir f name d c w _ _ hl hcw ha (by omega)
      refine ⟨c1, ?_, ?_, ?_, h3⟩
      · rw [walkDir_walker_eq]
        simp [Tree.entry, h1, hnd]
      · simp [h2, Tree.entries]
      · simp [h2]
    | dir d info cs => simp [Tree.height] at hh
  | succ n ih =>
    intro t name c hh hr hcw hcap
    cases t with
    | file d info fl =>
      simp only [Tree.represents, Bool.and_eq_true, decide_eq_true_eq, Bool.not_eq_true'] at hr
      obtain ⟨⟨⟨⟨⟨hl, hnd⟩, hinfo⟩, hreg⟩, hopen⟩, hgood⟩ := hr
      simp only [Tree.numFiles, Tree.numDirs] at hcap ⊢
      have ha := addFile_file_good H fsys name d dir c.modTime w c.io info fl hw hinfo hreg hopen hgood
      obtain ⟨c1, h1, h2, h3⟩ := walker_adds M H fsys dir f name d c w _ _ hl hcw ha (by omega)
      refine ⟨c1, ?_, ?_, ?_, h3⟩
      · rw [walkDir_walker_eq]
        simp [Tree.entry, h1, hnd]
      · simp [h2, Tree.entries]
      · simp [h2]
    | dir d info cs =>
      simp only [Tree.represents, Bool.and_eq_true, decide_eq_true_eq] at hr
      obtain ⟨⟨⟨⟨⟨hl, hd⟩, hinfo⟩, hisdir⟩, hrd⟩, hcs⟩ := hr
      simp only [Tree.numFiles, Tree.numDirs] at hcap ⊢
      simp only [Tree.height] at hh
      have ha := addFile_dir H fsys name d dir c.modTime w c.io info hinfo hisdir
      obtain ⟨c0, h1, h2, h3⟩ := walker_adds M H fsys dir f name d c w _ _ hl hcw ha (by omega)
      -- the children, in turn
      have hloop : ∀ (ts : List Tree) (c2 : Collector), heightList ts ≤ n →
          representsList fsys name ts = true → c2.writer = some w →
          c2.files.length + (numFilesList ts + numDirsList ts) ≤ M →
          ∃ c3, walkDirLoop (walkDir fsys (walker M H fsys dir f) n) name (ts.map Tree.entry) c2
              = .ret (none, c3) ∧
            c3.files = c2.files ++ entriesList H dir name ts ∧
            c3.files.length = c2.files.length + (numFilesList ts + numDirsList ts) ∧
            c3.writer = some w := by
        intro ts
        induction ts with
        | nil =>
          intro c2 _ _ hw2 _
          exact ⟨c2, by simp [walkDirLoop], by simp [entriesList],
            by simp [numFilesList, numDirsList], hw2⟩
        | cons t1 rest ihl =>
          intro c2 hh2 hr2 hw2 hcap2
          simp only [heightList, max_le_iff] at hh2
          simp only [representsList, Bool.and_eq_true] at hr2
          simp only [numFilesList, numDirsList] at hcap2 ⊢
          obtain ⟨c4, h4, h5, h5l, h6⟩ := ih t1 (pathJoin name t1.entry.name) c2 hh2.1 hr2.1 hw2
            (by omega)
          obtain ⟨c5, h7, h8, h8l, h9⟩ := ihl c4 hh2.2 hr2.2 h6 (by omega)
          refine ⟨c5, ?_, ?_, ?_, h9⟩
          · simp [walkDirLoop, h4, h7]
          · simp [h8, h5, entriesList]
          · omega
      obtain ⟨c3, h4, h5, h5l, h6⟩ := hloop cs c0 (by omega) hcs h3 (by rw [h2]; simp; omega)
      refine ⟨c3, ?_, ?_, ?_, h6⟩
      · rw [walkDir_walker_eq]
        simp [Tree.entry, h1, hd, hrd, h4]
      · simp [h5, h2, Tree.entries]
      · rw [h5l, h2]; simp; omega

/-! ## Collect on a tree -/

theorem isViewOf_iff (t : Tree) (fsys : FS) (h : t.isViewOf fsys = true) :
    ∃ info, fsys.stat "." = .ok info ∧ FileInfoToDirEntry info = t.entry ∧
      t.represents fsys "." = true := by
  unfold Tree.isViewOf at h
  cases hst : fsys.stat "." with
  | error e => simp [hst] at h
  | ok info =>
    simp only [hst, Bool.and_eq_true, decide_eq_true_eq] at h
    exact ⟨info, rfl, h.1, h.2⟩

/-- `Collect` on a view that is a tree shown without failure, with a writer that
never fails, fuel for the depth of the tree and room in the manifest: it returns
nil and has appended the entries of the tree in the order of the walk. -/
theorem Collect_tree (M : Nat) (H : FileHash) (fuel : Nat) (c : Collector) (fsys : FS)
    (dir : String) (w : TarWriter) (t : Tree) (hw : w.neverFails) (hcw : c.writer = some w)
    (hview : t.isViewOf fsys = true) (hfuel : t.height ≤ fuel)
    (hcap : c.files.length + (t.numFiles + t.numDirs) ≤ M) :
    ∃ c1, c.Collect M H fuel fsys dir = .ret (none, c1) ∧
      c1.files = c.files ++ t.entries H dir "." ∧
      c1.files.length = c.files.length + (t.numFiles + t.numDirs) := by
  obtain ⟨info, hst, hent, hrep⟩ := isViewOf_iff t fsys hview
  obtain ⟨c1, h1, h2, h3, _⟩ :=
    walkDir_tree M H fsys dir w hw fuel fuel t "." c hfuel hrep hcw hcap
  refine ⟨c1, ?_, h2, h3⟩
  unfold Collector.Collect
  rw [WalkDir_eq]
  simp [hst, hent, h1]

/-- C1, amended: for a view that is a tree of `N` regular files and, besides its
root directory, `D` directories, shown without failure and without symlinks, a
writer that never fails, any mount path and a limit `MaxFiles` of at least
`N + D + 1`, `Collect` on the collector `NewCollector` makes returns nil (given
fuel for the depth of the tree) and leaves `Files()` with exactly `N + D + 1`
entries: one for each file and each directory, the root directory included. -/
theorem Collect_counts_entries (MaxFiles N D : Nat) (H : FileHash) (fuel : Nat) (fsys : FS)
    (dir : String) (modTime : Nat) (enc : ZstdEncoder) (w : TarWriter) (c : Collector)
    (t : Tree)
    (hnew : NewCollector modTime (.ok enc) w = (some c, none))
    (hw : w.neverFails) (hview : t.isViewOf fsys = true)
    (hN : t.numFiles = N) (hD : t.numDirs = D + 1)
    (hcap : N + D + 1 ≤ MaxFiles) (hfuel : t.height ≤ fuel) :
    ∃ c1, c.Collect MaxFiles H fuel fsys dir = .ret (none, c1) ∧
      c1.Files.length = N + D + 1 := by
  have hc : c = Collector.mk [] modTime false (some enc) (some w) [] := by
    simp [NewCollector] at hnew
    exact hnew.symm
  have hcw : c.writer = some w := by rw [hc]
  have hcf : c.files = [] := by rw [hc]
  obtain ⟨c1, h1, _, h3⟩ := Collect_tree MaxFiles H fuel c fsys dir w t hw hcw hview hfuel
    (by rw [hcf, hN, hD]; simp; omega)
  refine ⟨c1, h1, ?_⟩
  simp only [Collector.Files]
  rw [h3, hcf, hN, hD]; simp; omega

/-- The sample writer never fails. -/
theorem okWriter_neverFails : okWriter.neverFails :=
  ⟨fun _ _ => rfl, fun _ _ => rfl⟩

/-- The sample view, 2 files and 1 directory besides the root, gives 4 entries. -/
theorem Collect_counts_entries_witness :
    NewCollector 0 (.ok {}) okWriter = (some freshCollector, none) ∧
    okWriter.neverFails ∧ sampleTree.isViewOf sampleFS = true ∧
    sampleTree.numFiles = 2 ∧ sampleTree.numDirs = 1 + 1 ∧ 2 + 1 + 1 ≤ 10000 ∧
    sampleTree.height ≤ 2 ∧
    ∃ c1, freshCollector.Collect 10000 spellHash 2 sampleFS "/public" = .ret (none, c1) ∧
      c1.Files.length = 2 + 1 + 1 :=
  ⟨rfl, okWriter_neverFails, by decide!, by decide, by decide, by decide, by decide,
    Collect_counts_entries 10000 2 1 spellHash 2 sampleFS "/public" 0 {} okWriter freshCollector
      sampleTree rfl okWriter_neverFails (by decide!) (by decide) (by decide) (by decide)
      (by decide)⟩

/-- C1, as stated, fails on the sample view (a directory with `a.txt` and
`b/c.txt`: 2 regular files and 1 directory besides the root). With
`MaxFiles = 3` the 2 files are within the limit, yet `Collect` on a fresh
collector returns `ErrTooManyFiles`; and with `MaxFiles = 10000` it returns nil
and leaves 4 entries, the first of them for the root directory, not 2 + 1. -/
theorem Collect_counts_counterexample :
    NewCollector 0 (.ok {}) okWriter = (some freshCollector, none) ∧
    sampleTree.isViewOf sampleFS = true ∧ sampleTree.numFiles = 2 ∧
    sampleTree.numDirs = 1 + 1 ∧
    (2 ≤ 3 ∧
      (freshCollector.Collect 3 spellHash 2 sampleFS "/").error? = some (some ErrTooManyFiles)) ∧
    (2 ≤ 10000 ∧
      (freshCollector.Collect 10000 spellHash 2 sampleFS "/").error? = some none ∧
      (freshCollector.Collect 10000 spellHash 2 sampleFS "/").files =
        [⟨"//", 0, ""⟩, ⟨"/a.txt", 5, "hello"⟩, ⟨"/b/", 0, ""⟩, ⟨"/b/c.txt", 6, "world!"⟩] ∧
      (freshCollector.Collect 10000 spellHash 2 sampleFS "/").files.length ≠ 2 + 1) :=
  ⟨rfl, by decide!, by decide, by decide, ⟨by decide, by decide!⟩,
    ⟨by decide, by decide!, by decide!, by decide!⟩⟩

/-! ## The entries of the manifest -/

/-- C10: (1) when the walker visits an entry at walk path `p` that is not a
symlink and `addFile` returns an entry for it, that entry is appended at the end
of the manifest; for a directory its Path is the slash-join of the mount path and
`p` followed by a slash, its Size 0 and its Hash empty; otherwise its Path is the
slash-join of the mount path and `p` and its Size the size `Info()` reports.
(2) `Collect` only appends: the manifest it leaves is the one it found followed
by what the walk added, in the order of the visits. (3) On a view that is a tree
shown without failure, the manifest is the one found followed by the entries of
the tree in the order of the walk. -/
theorem Collect_entries (MaxFiles : Nat) (H : FileHash) (fsys : FS) (dir : String) :
    (∀ (f : Nat) (p : String) (d : DirEntry) (c : Collector) (info : FileInfo)
        (entry : FileEntry) (io1 : List Event),
        ¬ d.typ &&& ModeSymlink = ModeSymlink → d.info = .ok info →
        addFile H fsys p d dir c.modTime c.writer c.io = .ret ((entry, none), io1) →
        (walker MaxFiles H fsys dir f p (some d) none c).files = c.Files ++ [entry] ∧
        (info.IsDir = true →
          entry = { Path := pathJoin dir (ToSlash p) ++ "/", Size := 0, Hash := "" }) ∧
        (info.IsDir = false →
          entry.Path = pathJoin dir (ToSlash p) ∧ entry.Size = info.size)) ∧
    (∀ (fuel : Nat) (c : Collector) (e : Option Error) (c1 : Collector),
        c.Collect MaxFiles H fuel fsys dir = .ret (e, c1) →
        ∃ added, c1.Files = c.Files ++ added) ∧
    (∀ (fuel : Nat) (c : Collector) (w : TarWriter) (t : Tree),
        w.neverFails → c.writer = some w → t.isViewOf fsys = true → t.height ≤ fuel →
        c.Files.length + (t.numFiles + t.numDirs) ≤ MaxFiles →
        ∃ c1, c.Collect MaxFiles H fuel fsys dir = .ret (none, c1) ∧
          c1.Files = c.Files ++ t.entries H dir ".") := by
  refine ⟨?_, ?_, ?_⟩
  · intro f p d c info entry io1 hl hinfo ha
    refine ⟨?_, ?_, ?_⟩
    · rw [walker_nolink _ _ _ _ _ _ _ _ hl, ha]
      simp [Outcome.files, Collector.Files]
    · intro hdir
      cases hcw : c.writer with
      | none => simp [addFile, hinfo, hcw] at ha
      | some w =>
        rw [hcw, addFile_dir H fsys p d dir c.modTime w c.io info hinfo hdir] at ha
        simp [entryFor, hdir] at ha
        exact ha.1.symm
    · intro hreg
      cases hcw : c.writer with
      | none => simp [addFile, hinfo, hcw] at ha
      | some w =>
        rw [hcw] at ha
        cases hop : fsys.openFile p with
        | error oe => simp [addFile, hinfo, hreg, hop] at ha
        | ok file =>
          obtain ⟨he, _⟩ := addFile_file_ok H fsys p d dir c.modTime w c.io info file entry io1
            hinfo hreg hop ha
          rw [he]; simp [entryFor, hreg]
  · intro fuel c e c1 h
    exact Collect_appends MaxFiles H fuel fsys dir c e c1 h
  · intro fuel c w t hw hcw hview hfuel hcap
    obtain ⟨c1, h1, h2, _⟩ := Collect_tree MaxFiles H fuel c fsys dir w t hw hcw hview hfuel hcap
    exact ⟨c1, h1, h2⟩

/-- The manifest of the sample view mounted at `/public`. -/
theorem Collect_entries_witness :
    ∃ c1, freshCollector.Collect 10000 spellHash 2 sampleFS "/public" = .ret (none, c1) ∧
      c1.Files = freshCollector.Files ++
        [⟨"/public/", 0, ""⟩, ⟨"/public/a.txt", 5, "hello"⟩, ⟨"/public/b/", 0, ""⟩,
          ⟨"/public/b/c.txt", 6, "world!"⟩] :=
  have h : sampleTree.entries spellHash "/public" "." =
      [⟨"/public/", 0, ""⟩, ⟨"/public/a.txt", 5, "hello"⟩, ⟨"/public/b/", 0, ""⟩,
        ⟨"/public/b/c.txt", 6, "world!"⟩] := by decide!
  h ▸ (Collect_entries 10000 spellHash sampleFS "/public").2.2 2 freshCollector okWriter
    sampleTree okWriter_neverFails rfl (by decide!) (by decide) (by decide)

/-! ## A header that cannot be written -/

/-- C4: the claim fails for the write of a header. On a collector that was closed,
whose writer fails every later call, and a view that is one empty directory,
`WriteHeader` fails, yet `Collect` returns nil and records the entry of the
directory: `addFile` drops the error of `WriteHeader`. -/
theorem Collect_ignores_header_error :
    closedCollector.io = [Event.CloseWriter, Event.CloseEncoder] ∧
    closableWriter.WriteHeader closedCollector.io
        { Typeflag := TypeDir, Name := "/public/", ModTime := 0, Size := 0 }
      = some (Error.other "archive/tar: write after close") ∧
    (closedCollector.Collect 10000 spellHash 1 emptyDirFS "/public").error? = some none ∧
    (closedCollector.Collect 10000 spellHash 1 emptyDirFS "/public").files =
      [⟨"/public/", 0, ""⟩] ∧
    (closedCollector.Collect 10000 spellHash 1 emptyDirFS "/public").trace =
      [Event.CloseWriter, Event.CloseEncoder,
        Event.WriteHeader { Typeflag := TypeDir, Name := "/public/", ModTime := 0, Size := 0 }] := by
  refine ⟨?_, ?_, ?_, ?_, ?_⟩ <;> decide!

/-! ## The hash of a file -/

theorem spellHash_streaming : spellHash.Streaming :=
  ⟨fun s => List.append_nil s, fun s a b => List.append_assoc s a b⟩

/-- C2: take a regular file at walk path `p` that the walker visits, whose
`Info()` and `Open` succeed, and a hasher that keeps its contract. (1) Whenever
`addFile` returns an entry for it, the walker appends that entry, its Hash is the
digest the hasher computes over exactly the bytes read from the file, and the
calls made on the archive writer are the header followed by writes of exactly
these bytes. (2) When the reads do not fail and the writer never fails, `addFile`
does return an entry. (3) The digest is the same for any other chunking of the
same bytes. -/
theorem addFile_hash_of_bytes_read (H : FileHash) (hH : H.Streaming) (MaxFiles : Nat) (fsys : FS)
    (f : Nat) (p : String) (d : DirEntry) (dir : String) (c : Collector) (w : TarWriter)
    (info : FileInfo) (file : File)
    (hl : ¬ d.typ &&& ModeSymlink = ModeSymlink)
    (hinfo : d.info = .ok info) (hreg : info.IsDir = false)
    (hopen : fsys.openFile p = .ok file) (hcw : c.writer = some w) :
    (∀ entry io1, addFile H fsys p d dir c.modTime c.writer c.io = .ret ((entry, none), io1) →
        (walker MaxFiles H fsys dir f p (some d) none c).files = c.Files ++ [entry] ∧
        entry.Hash = H.Sum (H.Write H.New (readBytes file.reads)) ∧
        io1 = c.io ++ Event.WriteHeader (headerFor dir p c.modTime info) :: writesOf file.reads ∧
        writtenBytes (io1.drop c.io.length) = readBytes file.reads) ∧
    (goodReads file.reads = true → w.neverFails →
        ∃ entry io1, addFile H fsys p d dir c.modTime c.writer c.io = .ret ((entry, none), io1)) ∧
    (∀ reads2, readBytes reads2 = readBytes file.reads →
        H.Sum (hashReads H reads2 H.New) = H.Sum (H.Write H.New (readBytes file.reads))) := by
  refine ⟨?_, ?_, ?_⟩
  · intro entry io1 hret
    have hret2 := hret
    rw [hcw] at hret2
    obtain ⟨he, hio⟩ := addFile_file_ok H fsys p d dir c.modTime w c.io info file entry io1
      hinfo hreg hopen hret2
    refine ⟨?_, ?_, hio, ?_⟩
    · rw [walker_nolink _ _ _ _ _ _ _ _ hl, hret]
      simp [Outcome.files, Collector.Files]
    · rw [he, ← hashReads_streaming H hH]; simp [entryFor, hreg]
    · rw [hio]; simp [writtenBytes, writtenBytes_writesOf]
  · intro hgood hw
    rw [hcw]
    exact ⟨_, _, addFile_file_good H fsys p d dir c.modTime w c.io info file hw hinfo hreg hopen
      hgood⟩
  · intro reads2 h2
    rw [hashReads_streaming H hH, h2]

/-- The file `b/c.txt` of the sample view, read in two chunks, hashes to the digest
of its six bytes. -/
theorem addFile_hash_of_bytes_read_witness :
    spellHash.Streaming ∧
    ¬ (FileInfoToDirEntry cInfo).typ &&& ModeSymlink = ModeSymlink ∧
    (FileInfoToDirEntry cInfo).info = .ok cInfo ∧ cInfo.IsDir = false ∧
    sampleFS.openFile "b/c.txt" = .ok cFile ∧ freshCollector.writer = some okWriter ∧
    (walker 10000 spellHash sampleFS "/" 0 "b/c.txt" (some (FileInfoToDirEntry cInfo)) none
        freshCollector).files = freshCollector.Files ++ [⟨"/b/c.txt", 6, "world!"⟩] ∧
    (⟨"/b/c.txt", 6, "world!"⟩ : FileEntry).Hash =
      spellHash.Sum (spellHash.Write spellHash.New (readBytes cFile.reads)) ∧
    writtenBytes (([Event.WriteHeader ⟨TypeReg, "/b/c.txt", 0, 6⟩, Event.Write [119, 111, 114],
        Event.Write [108, 100, 33]] : List Event).drop freshCollector.io.length) =
      readBytes cFile.reads :=
  have h := (addFile_hash_of_bytes_read spellHash spellHash_streaming 10000 sampleFS 0 "b/c.txt"
    (FileInfoToDirEntry cInfo) "/" freshCollector okWriter cInfo cFile (by decide) rfl
    (by decide) (by decide!) rfl).1 ⟨"/b/c.txt", 6, "world!"⟩
    [Event.WriteHeader ⟨TypeReg, "/b/c.txt", 0, 6⟩, Event.Write [119, 111, 114],
      Event.Write [108, 100, 33]] (by decide!)
  ⟨spellHash_streaming, by decide, rfl, by decide, by decide!, rfl, h.1, h.2.1, h.2.2.2⟩

end Pageship
